import Mathlib

/-!
Shallow embedding of the s2geometry vendored absl base headers
`s2/third_party/absl/base/log_severity.h` and
`s2/third_party/absl/strings/strip.h`.

Byte strings are `List Nat` (one element per byte); a `string_view`
is represented by the list of bytes it spans.  The C++
`enum class LogSeverity : int` has underlying type `int`, so it is
embedded as `Int`: any integer is a representable value of the enum
type, and `static_cast<LogSeverity>(n)` preserves the value.
-/

set_option autoImplicit false

namespace s2_absl

/-- The C++ `enum class LogSeverity : int` (log_severity.h lines 32-37): the
underlying type is `int`, so a severity value is an integer and arbitrary
integers are representable values of the enum type.  `kInfo` is
`LogSeverity::kInfo`. -/
def kInfo : Int := 0

def kWarning : Int := 1

def kError : Int := 2

def kFatal : Int := 3

/-- Embedding of `LogSeverities()` (log_severity.h lines 41-44): the four standard
values in ascending order. -/
def LogSeverities : List Int := [kInfo, kWarning, kError, kFatal]

/-- Embedding of `LogSeverityName` (log_severity.h lines 54-62). -/
def LogSeverityName (s : Int) : String :=
  if s = kInfo then "INFO"
  else if s = kWarning then "WARNING"
  else if s = kError then "ERROR"
  else if s = kFatal then "FATAL"
  else "UNKNOWN"

/-- Embedding of `NormalizeLogSeverity(LogSeverity)` (log_severity.h lines 66-70). -/
def NormalizeLogSeverity (s : Int) : Int :=
  if s < kInfo then kInfo
  else if s > kFatal then kError
  else s

/-- Embedding of `NormalizeLogSeverity(int)` (log_severity.h lines 71-73): the
`static_cast` to an enum whose underlying type is `int` preserves the
value, so the overload is normalization of the integer itself. -/
def NormalizeLogSeverityInt (n : Int) : Int :=
  NormalizeLogSeverity n

/-- Modelled from the spec: `kLogDebugFatal`.  Only the `extern`
declaration is among the supplied sources (log_severity.h line 50); the
defining translation unit is not.  Per the spec, the value is selected by
the single build-time flag meaning "assertions disabled" (`NDEBUG`):
Error when the flag is set, Fatal otherwise.  The flag is an explicit
argument here. -/
def kLogDebugFatal (ndebug : Bool) : Int :=
  if ndebug then kError else kFatal

lemma normalize_cases (n : Int) :
    NormalizeLogSeverityInt n = kInfo ∨ NormalizeLogSeverityInt n = kWarning ∨
      NormalizeLogSeverityInt n = kError ∨ NormalizeLogSeverityInt n = kFatal := by
  simp only [NormalizeLogSeverityInt, NormalizeLogSeverity, kInfo, kWarning, kError, kFatal]
  split_ifs <;> omega

/-- C1: for every integer `n`, `NormalizeLogSeverity(n)` is one of the four
defined severities; it is Info iff `n ≤ 0`, Warning iff `n = 1`, Error iff
`n = 2` or `n > 3`, Fatal iff `n = 3`; and every in-range input maps to
itself (so out-of-range-high inputs clamp to Error, never Fatal). -/
theorem normalize_int_spec (n : Int) :
    NormalizeLogSeverityInt n ∈ LogSeverities
      ∧ (NormalizeLogSeverityInt n = kInfo ↔ n ≤ 0)
      ∧ (NormalizeLogSeverityInt n = kWarning ↔ n = 1)
      ∧ (NormalizeLogSeverityInt n = kError ↔ (n = 2 ∨ n > 3))
      ∧ (NormalizeLogSeverityInt n = kFatal ↔ n = 3)
      ∧ LogSeverities.map NormalizeLogSeverity = LogSeverities := by
  refine ⟨?_, ?_, ?_, ?_, ?_, by decide⟩
  · simpa [LogSeverities] using normalize_cases n
  all_goals
    simp only [NormalizeLogSeverityInt, NormalizeLogSeverity, kInfo, kWarning, kError, kFatal]
    split_ifs <;> omega

/-- C4: `LogSeverityName` returns exactly "INFO", "WARNING", "ERROR",
"FATAL" on the four defined severities, and "UNKNOWN" on every other
integer reinterpreted as a severity. -/
theorem name_spec :
    LogSeverityName kInfo = "INFO"
      ∧ LogSeverityName kWarning = "WARNING"
      ∧ LogSeverityName kError = "ERROR"
      ∧ LogSeverityName kFatal = "FATAL"
      ∧ ∀ s : Int, s ∉ LogSeverities → LogSeverityName s = "UNKNOWN" := by
  refine ⟨by decide, by decide, by decide, by decide, ?_⟩
  intro s hs
  unfold LogSeverities at hs
  simp only [List.mem_cons, List.not_mem_nil, or_false, not_or] at hs
  unfold LogSeverityName
  split_ifs with h1 h2 h3 h4 <;> tauto

/-- Witness for C4 at the spec's own example: severity 7 is unnamed. -/
theorem name_spec_witness : LogSeverityName 7 = "UNKNOWN" :=
  name_spec.2.2.2.2 7 (by decide)

/-- C5: composing `LogSeverityName` with `NormalizeLogSeverity` over any
integer yields one of the four severity names, never "UNKNOWN". -/
theorem name_normalize_total (n : Int) :
    LogSeverityName (NormalizeLogSeverityInt n) ∈ ["INFO", "WARNING", "ERROR", "FATAL"]
      ∧ LogSeverityName (NormalizeLogSeverityInt n) ≠ "UNKNOWN" := by
  rcases normalize_cases n with h | h | h | h <;> rw [h] <;> exact ⟨by decide, by decide⟩

/-- C8: `kLogDebugFatal` is Fatal in a debug build (assertions enabled,
`NDEBUG` not defined) and Error in a release build (`NDEBUG` defined),
and in either build mode it is one of the defined severities. -/
theorem debug_fatal_spec :
    kLogDebugFatal false = kFatal
      ∧ kLogDebugFatal true = kError
      ∧ ∀ ndebug : Bool, kLogDebugFatal ndebug ∈ LogSeverities := by
  refine ⟨by decide, by decide, ?_⟩
  intro ndebug
  cases ndebug <;> decide

/-- One byte of a string; a `string_view` is the `List Byte` it spans. -/
abbrev Byte := Nat

/-- Modelled from the spec: `s2_absl::StartsWith` (match.h is not among
the supplied sources); matching is by raw byte equality at the front. -/
def StartsWith (s expected : List Byte) : Bool :=
  expected.isPrefixOf s

/-- Modelled from the spec: `s2_absl::EndsWith` (match.h is not among the
supplied sources); matching is by raw byte equality at the tail. -/
def EndsWith (s expected : List Byte) : Bool :=
  expected.isSuffixOf s

/-- Embedding of `ConsumePrefix` (strip.h lines 45-49): returns the boolean result and
the view after the call; `remove_prefix(n)` drops `n` bytes at the front. -/
def ConsumePrefix (str expected : List Byte) : Bool × List Byte :=
  if !StartsWith str expected then (false, str)
  else (true, str.drop expected.length)

/-- Embedding of `ConsumeSuffix` (strip.h lines 60-64): `remove_suffix(n)` retracts the
end, keeping the first `size - n` bytes. -/
def ConsumeSuffix (str expected : List Byte) : Bool × List Byte :=
  if !EndsWith str expected then (false, str)
  else (true, str.take (str.length - expected.length))

/-- Embedding of `StripPrefix` (strip.h lines 71-75). -/
def StripPrefix (str pre : List Byte) : List Byte :=
  if StartsWith str pre then str.drop pre.length else str

/-- Embedding of `StripSuffix` (strip.h lines 82-86). -/
def StripSuffix (str suf : List Byte) : List Byte :=
  if EndsWith str suf then str.take (str.length - suf.length) else str

/-- Modelled from the spec: `s2_absl::ascii_isspace` (ascii_ctype.h is not
among the supplied sources); ASCII whitespace is exactly the six bytes
0x20, 0x09, 0x0A, 0x0B, 0x0C, 0x0D. -/
def ascii_isspace (c : Byte) : Bool :=
  c = 0x20 || c = 0x09 || c = 0x0A || c = 0x0B || c = 0x0C || c = 0x0D

/-- Embedding of `SkipLeadingWhitespace` (strip.h lines 120-127): the argument is the
memory from the pointer up to and past the terminating NUL (byte 0), and
the returned pointer is represented by the tail of the list it heads. -/
def SkipLeadingWhitespace : List Byte → List Byte
  | [] => []
  | c :: rest => if ascii_isspace c then SkipLeadingWhitespace rest else c :: rest

/-- Embedding of `ReplaceCharacter` (strip.h lines 103-108): the loop walks the first
`len` bytes of the buffer, overwriting each byte equal to `remove` with
`replace_with`; bytes past `len` are not touched. -/
def ReplaceCharacter : List Byte → Nat → Byte → Byte → List Byte
  | buf, 0, _, _ => buf
  | [], _ + 1, _, _ => []
  | c :: rest, len + 1, rm, rw => (if c = rm then rw else c) :: ReplaceCharacter rest len rm rw

lemma isPrefixOf_iff : ∀ p v : List Byte, p.isPrefixOf v = true ↔ ∃ t, v = p ++ t
  | [], v => by simp [List.isPrefixOf]
  | a :: as, [] => by simp [List.isPrefixOf]
  | a :: as, b :: bs => by
      simp only [List.isPrefixOf, Bool.and_eq_true, beq_iff_eq, List.cons_append,
        List.cons.injEq]
      rw [isPrefixOf_iff as bs]
      constructor
      · rintro ⟨rfl, t, rfl⟩
        exact ⟨t, rfl, rfl⟩
      · rintro ⟨t, rfl, rfl⟩
        exact ⟨rfl, t, rfl⟩

lemma isSuffixOf_iff (p v : List Byte) : p.isSuffixOf v = true ↔ ∃ t, v = t ++ p := by
  rw [List.isSuffixOf, isPrefixOf_iff]
  constructor
  · rintro ⟨t, h⟩
    refine ⟨t.reverse, ?_⟩
    have h2 := congrArg List.reverse h
    simpa using h2
  · rintro ⟨t, rfl⟩
    exact ⟨t.reverse, by simp⟩

lemma consumePrefix_fst (v p : List Byte) : (ConsumePrefix v p).1 = StartsWith v p := by
  unfold ConsumePrefix
  cases h : StartsWith v p <;> simp [h]

lemma consumePrefix_snd (v p : List Byte) :
    (ConsumePrefix v p).2 = if StartsWith v p then v.drop p.length else v := by
  unfold ConsumePrefix
  cases h : StartsWith v p <;> simp [h]

lemma consumeSuffix_fst (v p : List Byte) : (ConsumeSuffix v p).1 = EndsWith v p := by
  unfold ConsumeSuffix
  cases h : EndsWith v p <;> simp [h]

lemma consumeSuffix_snd (v p : List Byte) :
    (ConsumeSuffix v p).2 = if EndsWith v p then v.take (v.length - p.length) else v := by
  unfold ConsumeSuffix
  cases h : EndsWith v p <;> simp [h]

/-- C2: `ConsumePrefix` succeeds exactly when the view begins with the
pattern; on success the view loses its first `|p|` bytes, on failure it is
unchanged; the empty pattern always succeeds with the view unchanged;
consuming the whole view empties it; a pattern longer than the view never
succeeds.  `ConsumeSuffix` satisfies the symmetric contract at the tail. -/
theorem consume_spec (v p : List Byte) :
    ((ConsumePrefix v p).1 = true ↔ ∃ t, v = p ++ t)
      ∧ (ConsumePrefix v p).2 = (if (ConsumePrefix v p).1 then v.drop p.length else v)
      ∧ ((ConsumePrefix v p).1 && decide (v.length < p.length)) = false
      ∧ ConsumePrefix v [] = (true, v)
      ∧ ConsumePrefix v v = (true, [])
      ∧ ((ConsumeSuffix v p).1 = true ↔ ∃ t, v = t ++ p)
      ∧ (ConsumeSuffix v p).2
          = (if (ConsumeSuffix v p).1 then v.take (v.length - p.length) else v)
      ∧ ((ConsumeSuffix v p).1 && decide (v.length < p.length)) = false := by
  refine ⟨?_, ?_, ?_, ?_, ?_, ?_, ?_, ?_⟩
  · rw [consumePrefix_fst]
    exact isPrefixOf_iff p v
  · rw [consumePrefix_snd, consumePrefix_fst]
  · rw [consumePrefix_fst]
    cases h : StartsWith v p
    · rfl
    · obtain ⟨t, rfl⟩ := (isPrefixOf_iff p v).mp h
      simp [List.length_append]
  · simp [ConsumePrefix, StartsWith, List.isPrefixOf]
  · have h : StartsWith v v = true := (isPrefixOf_iff v v).mpr ⟨[], by simp⟩
    simp [ConsumePrefix, h]
  · rw [consumeSuffix_fst]
    exact isSuffixOf_iff p v
  · rw [consumeSuffix_snd, consumeSuffix_fst]
  · rw [consumeSuffix_fst]
    cases h : EndsWith v p
    · rfl
    · obtain ⟨t, rfl⟩ := (isSuffixOf_iff p v).mp h
      simp [List.length_append]

/-- C9: a strip changes the length by exactly `|p|` when the pattern
matches and leaves the view unchanged otherwise; the result is never
longer than the input; the empty pattern strips nothing. -/
theorem strip_length_spec (v p : List Byte) :
    ((∃ t, v = p ++ t) → (StripPrefix v p).length = v.length - p.length)
      ∧ (¬(∃ t, v = p ++ t) → StripPrefix v p = v)
      ∧ (StripPrefix v p).length ≤ v.length
      ∧ StripPrefix v [] = v
      ∧ ((∃ t, v = t ++ p) → (StripSuffix v p).length = v.length - p.length)
      ∧ (¬(∃ t, v = t ++ p) → StripSuffix v p = v)
      ∧ (StripSuffix v p).length ≤ v.length
      ∧ StripSuffix v [] = v := by
  refine ⟨?_, ?_, ?_, ?_, ?_, ?_, ?_, ?_⟩
  · rintro ⟨t, rfl⟩
    have h : StartsWith (p ++ t) p = true := (isPrefixOf_iff p (p ++ t)).mpr ⟨t, rfl⟩
    simp [StripPrefix, h, List.length_append]
  · intro hn
    cases h : StartsWith (v : List Byte) p
    · simp [StripPrefix, h]
    · exact absurd ((isPrefixOf_iff p v).mp h) hn
  · unfold StripPrefix
    split_ifs <;> simp
  · simp [StripPrefix, StartsWith, List.isPrefixOf]
  · rintro ⟨t, rfl⟩
    have h : EndsWith (t ++ p) p = true := (isSuffixOf_iff p (t ++ p)).mpr ⟨t, rfl⟩
    simp [StripSuffix, h, List.length_append]
  · intro hn
    cases h : EndsWith (v : List Byte) p
    · simp [StripSuffix, h]
    · exact absurd ((isSuffixOf_iff p v).mp h) hn
  · unfold StripSuffix
    split_ifs <;> simp
  · have h : EndsWith v [] = true := (isSuffixOf_iff [] v).mpr ⟨v, by simp⟩
    simp [StripSuffix, h]

/-- Witness for C9 at the spec's examples: stripping "ab" from "abc"
leaves one byte, and a non-matching pattern leaves "abc" unchanged. -/
theorem strip_length_spec_witness :
    (StripPrefix [97, 98, 99] [97, 98]).length = 3 - 2
      ∧ StripPrefix [97, 98, 99] [122] = [97, 98, 99] :=
  ⟨(strip_length_spec [97, 98, 99] [97, 98]).1 ⟨[99], rfl⟩,
   (strip_length_spec [97, 98, 99] [122]).2.1 (by rintro ⟨t, h⟩; simp at h)⟩

/-- Counterexample to C3 as stated: with the empty pattern, the view
begins with the pattern twice over, yet the double strip equals the
single strip — so idempotence does not hold *only when* the view fails
to begin with the doubled pattern. -/
theorem strip_idem_counterexample :
    StartsWith [97] ([] ++ []) = true
      ∧ StripPrefix (StripPrefix [97] []) [] = StripPrefix [97] [] := by
  decide

/-- C3 (amended): one strip removes at most one occurrence — the result
is the input or the input less its first `|p|` bytes — and the double
strip equals the single strip if and only if the pattern is empty or the
view does not begin with the pattern twice in a row. -/
theorem strip_at_most_once (v p : List Byte) :
    (StripPrefix v p = v ∨ StripPrefix v p = v.drop p.length)
      ∧ (StripPrefix (StripPrefix v p) p = StripPrefix v p
          ↔ (p = [] ∨ (p ++ p).isPrefixOf v = false)) := by
  constructor
  · unfold StripPrefix
    split_ifs
    · exact Or.inr rfl
    · exact Or.inl rfl
  · by_cases hp : p = []
    · subst hp
      simp [StripPrefix, StartsWith, List.isPrefixOf]
    · by_cases h1 : p.isPrefixOf v = true
      · obtain ⟨t, rfl⟩ := (isPrefixOf_iff p v).mp h1
        have hs1 : StripPrefix (p ++ t) p = t := by
          simp [StripPrefix, StartsWith, h1, List.drop_left]
        rw [hs1]
        by_cases h2 : p.isPrefixOf t = true
        · obtain ⟨u, rfl⟩ := (isPrefixOf_iff p t).mp h2
          have hs2 : StripPrefix (p ++ u) p = u := by
            simp [StripPrefix, StartsWith, h2, List.drop_left]
          rw [hs2]
          have hpp : (p ++ p).isPrefixOf (p ++ (p ++ u)) = true :=
            (isPrefixOf_iff _ _).mpr ⟨u, by simp⟩
          simp only [hpp, hp, Bool.true_eq_false, or_false, false_or, iff_false]
          intro hu
          have hl := congrArg List.length hu
          simp only [List.length_append] at hl
          exact hp (List.length_eq_zero.mp (by omega))
        · have hs2 : StripPrefix t p = t := by
            simp [StripPrefix, StartsWith, h2]
          have hb : (p ++ p).isPrefixOf (p ++ t) = false := by
            cases b : (p ++ p).isPrefixOf (p ++ t)
            · rfl
            · obtain ⟨w, hw⟩ := (isPrefixOf_iff _ _).mp b
              rw [List.append_assoc] at hw
              have ht : t = p ++ w := List.append_cancel_left hw
              exact absurd ((isPrefixOf_iff p t).mpr ⟨w, ht⟩) h2
          simp [hs2, hb]
      · have hs1 : StripPrefix v p = v := by
          cases h : StartsWith v p
          · simp [StripPrefix, h]
          · exact absurd h h1
        have hb : (p ++ p).isPrefixOf v = false := by
          cases b : (p ++ p).isPrefixOf v
          · rfl
          · obtain ⟨w, hw⟩ := (isPrefixOf_iff _ _).mp b
            rw [List.append_assoc] at hw
            exact absurd ((isPrefixOf_iff p v).mpr ⟨p ++ w, hw⟩) h1
        simp [hs1, hb]

lemma skip_eq_drop (l : List Byte) :
    SkipLeadingWhitespace l = l.drop (l.takeWhile ascii_isspace).length := by
  induction l with
  | nil => rfl
  | cons c rest ih =>
      cases h : ascii_isspace c <;>
        simp [SkipLeadingWhitespace, List.takeWhile_cons, h, ih]

lemma skip_ne_nil (l : List Byte) (h : (0 : Byte) ∈ l) : SkipLeadingWhitespace l ≠ [] := by
  induction l with
  | nil => cases h
  | cons c rest ih =>
      cases hc : ascii_isspace c
      · simp [SkipLeadingWhitespace, hc]
      · have hc0 : c ≠ 0 := by
          rintro rfl
          cases hc
        have h0 : (0 : Byte) ∈ rest := by
          cases List.mem_cons.mp h with
          | inl he => exact absurd he.symm hc0
          | inr hr => exact hr
        simpa [SkipLeadingWhitespace, hc] using ih h0

lemma skip_head_not_space (l : List Byte) :
    ascii_isspace (SkipLeadingWhitespace l).headI = false := by
  induction l with
  | nil => rfl
  | cons c rest ih =>
      cases hc : ascii_isspace c
      · simp [SkipLeadingWhitespace, hc]
      · simpa [SkipLeadingWhitespace, hc] using ih

lemma takeWhile_length_le_indexOf (l : List Byte) :
    (l.takeWhile ascii_isspace).length ≤ l.indexOf 0 := by
  induction l with
  | nil => exact Nat.le_refl 0
  | cons c rest ih =>
      cases hc : ascii_isspace c
      · simp [List.takeWhile_cons, hc]
      · have hc0 : (c == (0 : Byte)) = false := by
          rw [beq_eq_false_iff_ne]
          rintro rfl
          cases hc
        simp only [List.takeWhile_cons, hc, if_true, List.length_cons,
          List.indexOf_cons, hc0, cond_false]
        omega

/-- C6: on a NUL-terminated byte string, `SkipLeadingWhitespace` returns a
pointer into the string (the result is the suffix starting right after the
leading whitespace run), never the null pointer (the result still heads at
least the terminating NUL), pointing at a non-whitespace byte or the NUL;
every skipped byte is ASCII whitespace; and the scan never advances past
the first NUL, so no byte beyond it is read. -/
theorem skip_whitespace_spec (l : List Byte) (h : (0 : Byte) ∈ l) :
    SkipLeadingWhitespace l = l.drop (l.takeWhile ascii_isspace).length
      ∧ SkipLeadingWhitespace l ≠ []
      ∧ ascii_isspace (SkipLeadingWhitespace l).headI = false
      ∧ (∀ b ∈ l.takeWhile ascii_isspace, ascii_isspace b = true)
      ∧ (l.takeWhile ascii_isspace).length ≤ l.indexOf 0 :=
  ⟨skip_eq_drop l, skip_ne_nil l h, skip_head_not_space l,
   fun _ hb => List.mem_takeWhile_imp hb, takeWhile_length_le_indexOf l⟩

/-- Witness for C6 at the spec's example "  \t h": two spaces, a tab, a
space, then 'h' and the terminating NUL. -/
theorem skip_whitespace_spec_witness :
    SkipLeadingWhitespace [32, 32, 9, 32, 104, 0] = [104, 0]
      ∧ SkipLeadingWhitespace [32, 32, 9, 32, 104, 0] ≠ []
      ∧ ascii_isspace (SkipLeadingWhitespace [32, 32, 9, 32, 104, 0]).headI = false
      ∧ ([32, 32, 9, 32, 104, 0].takeWhile ascii_isspace).length
          ≤ [32, 32, 9, 32, 104, 0].indexOf 0 :=
  ⟨(skip_whitespace_spec [32, 32, 9, 32, 104, 0] (by decide)).1,
   (skip_whitespace_spec [32, 32, 9, 32, 104, 0] (by decide)).2.1,
   (skip_whitespace_spec [32, 32, 9, 32, 104, 0] (by decide)).2.2.1,
   (skip_whitespace_spec [32, 32, 9, 32, 104, 0] (by decide)).2.2.2.2⟩

lemma replaceCharacter_length :
    ∀ (buf : List Byte) (n : Nat) (a b : Byte),
      (ReplaceCharacter buf n a b).length = buf.length
  | _, 0, _, _ => by simp [ReplaceCharacter]
  | [], _ + 1, _, _ => by simp [ReplaceCharacter]
  | c :: rest, n + 1, a, b => by
      simp [ReplaceCharacter, replaceCharacter_length rest n a b]

lemma replaceCharacter_getElem? :
    ∀ (buf : List Byte) (n : Nat) (a b : Byte) (i : Nat),
      (ReplaceCharacter buf n a b)[i]?
        = if i < n then buf[i]?.map (fun c => if c = a then b else c) else buf[i]?
  | buf, 0, a, b, i => by simp [ReplaceCharacter]
  | [], n + 1, a, b, i => by simp [ReplaceCharacter]
  | c :: rest, n + 1, a, b, 0 => by simp [ReplaceCharacter]
  | c :: rest, n + 1, a, b, i + 1 => by
      simp only [ReplaceCharacter, List.getElem?_cons_succ]
      rw [replaceCharacter_getElem? rest n a b i]
      by_cases hi : i < n <;> simp [hi, Nat.succ_lt_succ_iff]

/-- C7: after `ReplaceCharacter(buf, n, a, b)` with `a ≠ b`, the buffer
keeps its length, the first `n` positions contain no byte equal to `a`,
every position among the first `n` that held `a` now holds `b`, every
other position among the first `n` is unchanged, positions at or beyond
`n` are untouched, and a zero length changes nothing. -/
theorem replace_char_spec (buf : List Byte) (n : Nat) (a b : Byte) (hab : a ≠ b) :
    (ReplaceCharacter buf n a b).length = buf.length
      ∧ (∀ i, i < n → (ReplaceCharacter buf n a b)[i]? ≠ some a)
      ∧ (∀ i, i < n → buf[i]? = some a → (ReplaceCharacter buf n a b)[i]? = some b)
      ∧ (∀ i, i < n → buf[i]? ≠ some a → (ReplaceCharacter buf n a b)[i]? = buf[i]?)
      ∧ (∀ i, n ≤ i → (ReplaceCharacter buf n a b)[i]? = buf[i]?)
      ∧ ReplaceCharacter buf 0 a b = buf := by
  refine ⟨replaceCharacter_length buf n a b, ?_, ?_, ?_, ?_, by simp [ReplaceCharacter]⟩
  · intro i hi
    rw [replaceCharacter_getElem?, if_pos hi]
    cases hc : buf[i]? with
    | none => simp
    | some c =>
        simp only [Option.map_some', ne_eq, Option.some.injEq]
        by_cases h : c = a
        · simp only [h, if_pos rfl]
          exact fun hba => hab hba.symm
        · simp [h]
  · intro i hi hsome
    rw [replaceCharacter_getElem?, if_pos hi, hsome]
    simp
  · intro i hi hna
    rw [replaceCharacter_getElem?, if_pos hi]
    cases hc : buf[i]? with
    | none => simp
    | some c =>
        rw [hc] at hna
        have hca : c ≠ a := fun hh => hna (by rw [hh])
        simp [hca]
  · intro i hni
    rw [replaceCharacter_getElem?, if_neg (by omega)]

/-- Witness for C7 at the spec's example: "a-b-c" with '-' replaced by
'_' keeps its five bytes and holds no '-' at position 1. -/
theorem replace_char_spec_witness :
    (ReplaceCharacter [97, 45, 98, 45, 99] 5 45 95).length = 5
      ∧ (ReplaceCharacter [97, 45, 98, 45, 99] 5 45 95)[1]? ≠ some 45 :=
  ⟨(replace_char_spec [97, 45, 98, 45, 99] 5 45 95 (by decide)).1,
   (replace_char_spec [97, 45, 98, 45, 99] 5 45 95 (by decide)).2.1 1 (by decide)⟩

lemma replaceCharacter_self :
    ∀ (buf : List Byte) (n : Nat) (a : Byte), ReplaceCharacter buf n a a = buf
  | _, 0, _ => by simp [ReplaceCharacter]
  | [], _ + 1, _ => by simp [ReplaceCharacter]
  | c :: rest, n + 1, a => by
      by_cases h : c = a <;> simp [ReplaceCharacter, h, replaceCharacter_self rest n a]

lemma replaceCharacter_idem :
    ∀ (buf : List Byte) (n : Nat) (a b : Byte),
      ReplaceCharacter (ReplaceCharacter buf n a b) n a b = ReplaceCharacter buf n a b
  | _, 0, _, _ => by simp [ReplaceCharacter]
  | [], _ + 1, _, _ => by simp [ReplaceCharacter]
  | c :: rest, n + 1, a, b => by
      have hf : (if (if c = a then b else c) = a then b else (if c = a then b else c))
          = (if c = a then b else c) := by
        by_cases h : c = a <;> by_cases hb : b = a <;> simp [h, hb]
      simp [ReplaceCharacter, hf, replaceCharacter_idem rest n a b]

/-- C10: replacing a byte by itself leaves the buffer unchanged, and
`ReplaceCharacter` is idempotent for every argument combination, not only
when the removed byte differs from the replacement. -/
theorem replace_char_idem (buf : List Byte) (n : Nat) (a b : Byte) :
    ReplaceCharacter buf n a a = buf
      ∧ ReplaceCharacter (ReplaceCharacter buf n a b) n a b
          = ReplaceCharacter buf n a b :=
  ⟨replaceCharacter_self buf n a, replaceCharacter_idem buf n a b⟩

end s2_absl
